import Mathlib

/-!
Verification of the certificate force-renewal tool (`main.go`).

The embedding follows the source closely:
* `analyze` is the classification loop of `run` (lines 85–129): it correlates
  each certificate with its backing secret, decodes the stored material, applies
  the issuer-name filter, and accumulates a skipped count together with the
  serial-number-keyed affected map.
* `renewCertificate` is the per-certificate renewal driver (lines 164–230):
  cancel stale completed requests, re-read and annotate the secret, and poll for
  a newly created owned request.  External store operations are supplied as a
  pure response oracle (`Env`); side effects (deletions, secret updates) are
  collected in an explicit `Effects` trace.
* X.509 decoding (`pki.DecodeX509CertificateBytes`) is external to the
  repository, so it is a parameter `decode`; concrete instances are used for
  witnesses.
-/

/-- Certificate declaration: namespace, name, backing secret name, and the UID
used by `metav1.IsControlledBy` owner matching. -/
structure Certificate where
  ns : String
  name : String
  secretName : String
  uid : String
deriving DecidableEq, Repr

/-- Secret record.  `data` and `annotations` are `Option`-wrapped to model Go's
nil maps (reads on a nil map yield the zero value; writes fault). -/
structure Secret where
  ns : String
  name : String
  data : Option (List (String × List Nat))
  annotations : Option (List (String × String))
deriving DecidableEq, Repr

/-- The part of a decoded X.509 certificate the tool uses. -/
structure DecodedCert where
  serialNumber : String
deriving DecidableEq, Repr

/-- CertificateRequest: `controllerUID` is the UID of the controlling owner
reference (none when there is no controller), `statusCertificate` is the
`Status.Certificate` completion marker bytes. -/
structure CertificateRequest where
  ns : String
  name : String
  controllerUID : Option String
  statusCertificate : List Nat
deriving DecidableEq, Repr

/-- `metav1.IsControlledBy(&req, &cert)`. -/
def isControlledBy (req : CertificateRequest) (cert : Certificate) : Bool :=
  req.controllerUID = some cert.uid

def tlsCertKey : String := "tls.crt"

def issuerAnnKey : String := "cert-manager.io/issuer-name"

def forceRenewalValue : String := "force-renewal-triggered"

/-- Go map read on an association list. -/
def lookupA {α : Type} : List (String × α) → String → Option α
  | [], _ => none
  | p :: rest, k => if p.1 = k then some p.2 else lookupA rest k

/-- Go map write `m[k] = v`: replace an existing key, otherwise add the entry. -/
def setA {α : Type} (m : List (String × α)) (k : String) (v : α) :
    List (String × α) :=
  if m.any (fun p => p.1 = k) then m.map (fun p => if p.1 = k then (k, v) else p)
  else m ++ [(k, v)]

/-- `makeSecretsMap`: index the secrets by `namespace + "/" + name`. -/
def makeSecretsMap (secrets : List Secret) : List (String × Secret) :=
  secrets.foldl (fun m s => setA m (s.ns ++ "/" ++ s.name) s) []

/-- Outcome of resolving and decoding a certificate's backing secret
(lines 88–108 of `run`). -/
inductive CorrelateResult where
  | notFound
  | noData
  | decodeErr
  | success (dc : DecodedCert) (secret : Secret)
deriving DecidableEq, Repr

/-- Lines 88–108 of `run`: look up the backing secret, check its `tls.crt`
data, decode.  A Go nil map read returns the zero value, so an absent `data`
map and an absent `tls.crt` key both behave as nil certificate bytes. -/
def correlate (decode : List Nat → Option DecodedCert)
    (secretsMap : List (String × Secret)) (crt : Certificate) :
    CorrelateResult :=
  match lookupA secretsMap (crt.ns ++ "/" ++ crt.secretName) with
  | none => .notFound
  | some secret =>
    match secret.data with
    | none => .noData
    | some d =>
      match lookupA d tlsCertKey with
      | none => .noData
      | some certPEM =>
        match decode certPEM with
        | none => .decodeErr
        | some cert => .success cert secret

/-- The filter loop of `run` (lines 110–120): range over the annotation map,
set `skip` and bump `skipped` for the issuer-name key when its value differs
from the filter.  Returns (skip, skipped increment). -/
def filterScan (issuerName : String) (anns : List (String × String)) :
    Bool × Nat :=
  anns.foldl
    (fun acc p =>
      if p.1 = issuerAnnKey ∧ p.2 ≠ issuerName then (true, acc.2 + 1) else acc)
    (false, 0)

/-- One iteration of the classification loop of `run` for a single
certificate: returns the increment to `skipped` and the entry added to
`serialsToCertificates` (if any). -/
def checkCert (decode : List Nat → Option DecodedCert) (issuerName : String)
    (secretsMap : List (String × Secret)) (crt : Certificate) :
    Nat × Option (String × Certificate) :=
  match correlate decode secretsMap crt with
  | .notFound => (1, none)
  | .noData => (1, none)
  | .decodeErr => (1, none)
  | .success cert secret =>
    if issuerName ≠ "" then
      if (filterScan issuerName (secret.annotations.getD [])).1 then
        ((filterScan issuerName (secret.annotations.getD [])).2, none)
      else ((filterScan issuerName (secret.annotations.getD [])).2,
        some (cert.serialNumber, crt))
    else (0, some (cert.serialNumber, crt))

/-- The skipped count and the affected map produced by the analysis phase. -/
structure AnalysisResult where
  skipped : Nat
  affected : List (String × Certificate)
deriving DecidableEq, Repr

/-- One loop iteration of the analysis phase: add the certificate's skipped
increment and insert its entry (if any) into the affected map. -/
def stepF (decode : List Nat → Option DecodedCert) (issuerName : String)
    (secretsMap : List (String × Secret)) (acc : AnalysisResult)
    (crt : Certificate) : AnalysisResult :=
  { skipped := acc.skipped + (checkCert decode issuerName secretsMap crt).1
    affected :=
      match (checkCert decode issuerName secretsMap crt).2 with
      | none => acc.affected
      | some e => setA acc.affected e.1 e.2 }

/-- The classification loop of `run` (lines 85–129). -/
def analyze (decode : List Nat → Option DecodedCert) (issuerName : String)
    (certs : List Certificate) (secrets : List Secret) : AnalysisResult :=
  certs.foldl (stepF decode issuerName (makeSecretsMap secrets)) ⟨0, []⟩

/-- Failure values an operation may return. -/
inductive Err where
  | listCertsErr
  | listSecretsErr
  | listRequestsErr
  | getSecretErr
  | updateSecretErr
  | deleteRequestErr
  | timeoutErr
  | nilMapFault
deriving DecidableEq, Repr

/-- Pure response oracle for the backing store.  `listRequestsAt t ns` is the
answer to listing the CertificateRequests of namespace `ns` at tick `t`
(tick 0 is the CancelStale listing, ticks ≥ 1 the AwaitRequest polls). -/
structure Env where
  listRequestsAt : Nat → String → Except Err (List CertificateRequest)
  getSecret : String → String → Except Err Secret
  updateSecret : Secret → Except Err Unit
  deleteRequest : CertificateRequest → Except Err Unit

/-- Side-effect trace: requests deleted and secrets updated, in order. -/
structure Effects where
  deleted : List CertificateRequest
  updated : List Secret
deriving DecidableEq, Repr

def noEffects : Effects := ⟨[], []⟩

def Effects.append (a b : Effects) : Effects :=
  ⟨a.deleted ++ b.deleted, a.updated ++ b.updated⟩

/-- Result of the CancelStale request loop. -/
inductive StaleOutcome where
  | earlyDone (eff : Effects)
  | proceed (eff : Effects)
  | failed (e : Err) (eff : Effects)
deriving DecidableEq, Repr

/-- The CancelStale loop of `renewCertificate` (lines 165–184): skip requests
not controlled by the certificate; return early (success, no further action)
at an owned request whose completion marker is empty; delete owned completed
requests, propagating a deletion failure. -/
def cancelStaleLoop (env : Env) (cert : Certificate) :
    List CertificateRequest → Effects → StaleOutcome
  | [], eff => .proceed eff
  | req :: rest, eff =>
    if isControlledBy req cert then
      if req.statusCertificate.length = 0 then .earlyDone eff
      else
        match env.deleteRequest req with
        | .error e => .failed e eff
        | .ok _ => cancelStaleLoop env cert rest ⟨eff.deleted ++ [req], eff.updated⟩
    else cancelStaleLoop env cert rest eff

/-- Go map write through a possibly-nil map: writing to a nil map faults. -/
def mapWrite (m : Option (List (String × String))) (k v : String) :
    Option (List (String × String)) :=
  match m with
  | none => none
  | some l => some (setA l k v)

/-- Lines 196–199 of `renewCertificate`: if the annotation map is nil, create
an empty one first, then set the issuer-name annotation to the sentinel. -/
def annotateSecret (s : Secret) : Option Secret :=
  let anns :=
    match s.annotations with
    | none => some []
    | some a => some a
  match mapWrite anns issuerAnnKey forceRenewalValue with
  | none => none
  | some a => some { s with annotations := some a }

def pollInterval : Nat := 1

def pollCeiling : Nat := 60

/-- The AwaitRequest poll loop (`wait.Poll(time.Second, time.Minute, ...)`):
at each tick list the namespace's requests, succeed at the first sighting of
an owned request, propagate a listing error, and time out when the fuel is
exhausted. -/
def awaitFrom (env : Env) (cert : Certificate) : Nat → Nat → Except Err Unit
  | _, 0 => .error .timeoutErr
  | tick, fuel + 1 =>
    match env.listRequestsAt tick cert.ns with
    | .error e => .error e
    | .ok reqs =>
      if reqs.any (fun r => isControlledBy r cert) then .ok ()
      else awaitFrom env cert (tick + pollInterval) fuel

/-- AwaitRequest: `wait.Poll` waits one interval before the first check, so
polls happen at ticks `pollInterval, 2*pollInterval, ...` with
`pollCeiling / pollInterval` checks in total. -/
def awaitRequest (env : Env) (cert : Certificate) : Except Err Unit :=
  awaitFrom env cert pollInterval (pollCeiling / pollInterval)

/-- `renewCertificate` (lines 164–230): CancelStale, then re-read the secret,
annotate and persist it, then AwaitRequest.  Returns the result together with
the side-effect trace. -/
def renewCertificate (env : Env) (cert : Certificate) :
    Except Err Unit × Effects :=
  match env.listRequestsAt 0 cert.ns with
  | .error e => (.error e, noEffects)
  | .ok reqs =>
    match cancelStaleLoop env cert reqs noEffects with
    | .earlyDone eff => (.ok (), eff)
    | .failed e eff => (.error e, eff)
    | .proceed eff =>
      match env.getSecret cert.ns cert.secretName with
      | .error e => (.error e, eff)
      | .ok secret =>
        match annotateSecret secret with
        | none => (.error .nilMapFault, eff)
        | some updatedSecret =>
          match env.updateSecret updatedSecret with
          | .error e => (.error e, eff)
          | .ok _ =>
            (awaitRequest env cert, ⟨eff.deleted, eff.updated ++ [updatedSecret]⟩)

/-- The renewal loop of `run` (lines 150–156): drive each affected certificate
in turn, aborting with the first error. -/
def renewAll (env : Env) : List Certificate → Effects → Except Err Unit × Effects
  | [], eff => (.ok (), eff)
  | c :: rest, eff =>
    let step := renewCertificate env c
    let eff' := Effects.append eff step.2
    match step.1 with
    | .error e => (.error e, eff')
    | .ok _ => renewAll env rest eff'

/-- `run`: the two bulk reads (supplied as their results), the analysis phase,
the early returns for an empty affected set or a dry run, then the renewal
loop. -/
def run (decode : List Nat → Option DecodedCert) (issuerName : String)
    (renew : Bool) (env : Env) (certsRes : Except Err (List Certificate))
    (secretsRes : Except Err (List Secret)) : Except Err Unit × Effects :=
  match certsRes with
  | .error e => (.error e, noEffects)
  | .ok certs =>
    match secretsRes with
    | .error e => (.error e, noEffects)
    | .ok secrets =>
      let result := analyze decode issuerName certs secrets
      if result.affected.length = 0 then (.ok (), noEffects)
      else if ¬ renew then (.ok (), noEffects)
      else renewAll env (result.affected.map Prod.snd) noEffects

/-- A concrete decoder for witnesses: fails on empty bytes and on bytes whose
first byte is 0, otherwise yields the first byte as the serial number. -/
def demoDecode (b : List Nat) : Option DecodedCert :=
  match b with
  | [] => none
  | 0 :: _ => none
  | n :: _ => some ⟨toString n⟩

/-! ### Association-list (Go map) lemmas -/

def keysOf {α : Type} (m : List (String × α)) : List String := m.map Prod.fst

theorem any_key_iff {α : Type} (m : List (String × α)) (k : String) :
    m.any (fun p => p.1 = k) = true ↔ k ∈ keysOf m := by
  simp [keysOf, List.any_eq_true, List.mem_map]

theorem setA_not_mem {α : Type} (m : List (String × α)) (k : String) (v : α)
    (h : k ∉ keysOf m) : setA m k v = m ++ [(k, v)] := by
  unfold setA
  rw [if_neg]
  intro hc
  exact h ((any_key_iff m k).1 hc)

theorem mem_setA {α : Type} (m : List (String × α)) (k : String) (v : α)
    (e : String × α) (h : e ∈ setA m k v) : e = (k, v) ∨ e ∈ m := by
  unfold setA at h
  split at h
  · obtain ⟨p, hp, he⟩ := List.mem_map.1 h
    by_cases hpk : p.1 = k
    · left
      rw [← he, if_pos hpk]
    · right
      rw [← he, if_neg hpk]
      exact hp
  · rcases List.mem_append.1 h with h1 | h1
    · right
      exact h1
    · left
      simpa using h1

theorem keysOf_setA_replace {α : Type} (m : List (String × α)) (k : String)
    (v : α) (h : m.any (fun p => p.1 = k) = true) :
    keysOf (setA m k v) = keysOf m := by
  unfold setA
  rw [if_pos h]
  unfold keysOf
  rw [List.map_map]
  apply List.map_congr_left
  intro p _
  by_cases hpk : p.1 = k
  · simp [hpk]
  · simp [hpk]

theorem mem_keysOf_setA {α : Type} (m : List (String × α)) (k : String) (v : α)
    (k' : String) : k' ∈ keysOf (setA m k v) ↔ k' = k ∨ k' ∈ keysOf m := by
  by_cases h : m.any (fun p => p.1 = k) = true
  · rw [keysOf_setA_replace m k v h]
    have hk := (any_key_iff m k).1 h
    constructor
    · exact Or.inr
    · rintro (rfl | hm)
      · exact hk
      · exact hm
  · rw [setA_not_mem m k v (fun hc => h ((any_key_iff m k).2 hc))]
    unfold keysOf
    simp
    tauto

theorem length_setA_not_mem {α : Type} (m : List (String × α)) (k : String)
    (v : α) (h : k ∉ keysOf m) : (setA m k v).length = m.length + 1 := by
  rw [setA_not_mem m k v h]
  simp

theorem lookupA_append_of_none {α : Type} (m1 m2 : List (String × α))
    (k : String) (h : lookupA m1 k = none) :
    lookupA (m1 ++ m2) k = lookupA m2 k := by
  induction m1 with
  | nil => rfl
  | cons p rest ih =>
    simp only [lookupA] at h
    simp only [List.cons_append, lookupA]
    by_cases hp : p.1 = k
    · simp [hp] at h
    · rw [if_neg hp] at h ⊢
      exact ih h

theorem lookupA_none_of_not_mem {α : Type} (m : List (String × α)) (k : String)
    (h : k ∉ keysOf m) : lookupA m k = none := by
  induction m with
  | nil => rfl
  | cons p rest ih =>
    have hp : p.1 ≠ k := by
      intro hc
      exact h (by simp [keysOf, hc])
    have hrest : k ∉ keysOf rest := by
      intro hc
      apply h
      simp [keysOf] at hc ⊢
      tauto
    simp only [lookupA]
    rw [if_neg hp]
    exact ih hrest

theorem lookupA_map_replace {α : Type} (k : String) (v : α) :
    ∀ m : List (String × α), k ∈ keysOf m →
      lookupA (m.map (fun p => if p.1 = k then (k, v) else p)) k = some v := by
  intro m
  induction m with
  | nil =>
    intro h
    simp [keysOf] at h
  | cons p rest ih =>
    intro h
    by_cases hp : p.1 = k
    · simp [lookupA, hp]
    · have hk : k ∈ keysOf rest := by
        unfold keysOf at h ⊢
        simp at h ⊢
        rcases h with h | h
        · exact absurd h.symm hp
        · exact h
      simp [lookupA, hp]
      exact ih hk

theorem lookupA_setA_self {α : Type} (m : List (String × α)) (k : String)
    (v : α) : lookupA (setA m k v) k = some v := by
  by_cases h : k ∈ keysOf m
  · unfold setA
    rw [if_pos ((any_key_iff m k).2 h)]
    exact lookupA_map_replace k v m h
  · rw [setA_not_mem m k v h,
      lookupA_append_of_none _ _ _ (lookupA_none_of_not_mem m k h)]
    simp [lookupA]

/-! ### The annotate step (C10) -/

theorem annotateSecret_eq (s : Secret) :
    annotateSecret s = some ⟨s.ns, s.name, s.data,
      some (setA (s.annotations.getD []) issuerAnnKey forceRenewalValue)⟩ := by
  rcases s with ⟨ns, name, data, anns⟩
  cases anns <;> rfl

/-- C10: the Annotate step's in-memory annotation write never faults, even on a
secret whose annotation map is nil — the guard creates an empty map first, and
the resulting secret always carries the issuer-name annotation set to the
force-renewal sentinel. -/
theorem annotate_never_faults :
    ∀ s : Secret, ∃ s', annotateSecret s = some s' ∧ s'.annotations ≠ none ∧
      lookupA (s'.annotations.getD []) issuerAnnKey = some forceRenewalValue := by
  intro s
  refine ⟨_, annotateSecret_eq s, by simp, ?_⟩
  simpa using lookupA_setA_self (s.annotations.getD []) issuerAnnKey forceRenewalValue

/-! ### Dry runs and fetch errors (C9, C6) -/

theorem run_dry_aux (decode : List Nat → Option DecodedCert)
    (issuerName : String) (env : Env) (certs : List Certificate)
    (secrets : List Secret) :
    run decode issuerName false env (.ok certs) (.ok secrets) =
      (.ok (), noEffects) := by
  unfold run
  by_cases h : (analyze decode issuerName certs secrets).affected.length = 0 <;>
    simp [h]

/-- C9: with the renew flag false the run performs analysis and reporting only:
it returns success and the side-effect trace is empty (no RenewalRequest
deleted, no SecretRecord updated), however many certificates are affected. -/
theorem dry_run_no_mutations (decode : List Nat → Option DecodedCert)
    (issuerName : String) (env : Env) (certs : List Certificate)
    (secrets : List Secret) :
    run decode issuerName false env (.ok certs) (.ok secrets) =
      (.ok (), noEffects) :=
  run_dry_aux decode issuerName env certs secrets

/-- C6: if either bulk read fails, the run returns that error immediately with
an empty side-effect trace — no classification and no store mutation. -/
theorem fetch_error_aborts :
    (∀ (decode : List Nat → Option DecodedCert) (issuerName : String)
        (renew : Bool) (env : Env) (e : Err)
        (secretsRes : Except Err (List Secret)),
      run decode issuerName renew env (.error e) secretsRes =
        (.error e, noEffects)) ∧
    (∀ (decode : List Nat → Option DecodedCert) (issuerName : String)
        (renew : Bool) (env : Env) (certs : List Certificate) (e : Err),
      run decode issuerName renew env (.ok certs) (.error e) =
        (.error e, noEffects)) := by
  constructor <;> intros <;> rfl

/-! ### Correlator characterizations -/

theorem correlate_success_elim (decode : List Nat → Option DecodedCert)
    (sm : List (String × Secret)) (crt : Certificate) (dc : DecodedCert)
    (s : Secret) (h : correlate decode sm crt = .success dc s) :
    lookupA sm (crt.ns ++ "/" ++ crt.secretName) = some s ∧
      ∃ d pem, s.data = some d ∧ lookupA d tlsCertKey = some pem ∧
        decode pem = some dc := by
  unfold correlate at h
  split at h
  · simp at h
  · rename_i secret hl
    split at h
    · simp at h
    · rename_i d hd
      split at h
      · simp at h
      · rename_i pem hpem
        split at h
        · simp at h
        · rename_i c hdec
          simp only [CorrelateResult.success.injEq] at h
          obtain ⟨rfl, rfl⟩ := h
          exact ⟨hl, d, pem, hd, hpem, hdec⟩

def CorrelateResult.isSkip : CorrelateResult → Bool
  | .success _ _ => false
  | _ => true

theorem correlate_skip_iff (decode : List Nat → Option DecodedCert)
    (hempty : decode [] = none) (sm : List (String × Secret))
    (crt : Certificate) :
    (correlate decode sm crt).isSkip = true ↔
      (lookupA sm (crt.ns ++ "/" ++ crt.secretName) = none ∨
       (∃ s, lookupA sm (crt.ns ++ "/" ++ crt.secretName) = some s ∧
         (s.data = none ∨ lookupA (s.data.getD []) tlsCertKey = none ∨
          lookupA (s.data.getD []) tlsCertKey = some [])) ∨
       (∃ s pem, lookupA sm (crt.ns ++ "/" ++ crt.secretName) = some s ∧
         lookupA (s.data.getD []) tlsCertKey = some pem ∧ decode pem = none)) := by
  rcases hl : lookupA sm (crt.ns ++ "/" ++ crt.secretName) with _ | s
  · have hc : correlate decode sm crt = .notFound := by
      simp only [correlate, hl]
    rw [hc]
    simp [CorrelateResult.isSkip]
  · rcases hd : s.data with _ | d
    · have hc : correlate decode sm crt = .noData := by
        simp only [correlate, hl, hd]
      rw [hc]
      constructor
      · intro _
        exact Or.inr (Or.inl ⟨s, rfl, Or.inl hd⟩)
      · intro _
        rfl
    · rcases hpem : lookupA d tlsCertKey with _ | pem
      · have hc : correlate decode sm crt = .noData := by
          simp only [correlate, hl, hd, hpem]
        rw [hc]
        constructor
        · intro _
          refine Or.inr (Or.inl ⟨s, rfl, Or.inr (Or.inl ?_)⟩)
          simp [hd, hpem]
        · intro _
          rfl
      · rcases hdec : decode pem with _ | c
        · have hc : correlate decode sm crt = .decodeErr := by
            simp only [correlate, hl, hd, hpem, hdec]
          rw [hc]
          constructor
          · intro _
            refine Or.inr (Or.inr ⟨s, pem, rfl, ?_, hdec⟩)
            simp [hd, hpem]
          · intro _
            rfl
        · have hc : correlate decode sm crt = .success c s := by
            simp only [correlate, hl, hd, hpem, hdec]
          rw [hc]
          constructor
          · intro hfalse
            simp [CorrelateResult.isSkip] at hfalse
          · rintro (hcase | ⟨s', hs', hcase⟩ | ⟨s', pem', hs', hpem', hdec'⟩)
            · simp at hcase
            · obtain rfl : s' = s := by simpa using hs'.symm
              rcases hcase with hcase | hcase | hcase
              · rw [hd] at hcase
                simp at hcase
              · rw [hd] at hcase
                simp [hpem] at hcase
              · rw [hd] at hcase
                simp [hpem] at hcase
                subst hcase
                rw [hempty] at hdec
                simp at hdec
            · obtain rfl : s' = s := by simpa using hs'.symm
              rw [hd] at hpem'
              simp [hpem] at hpem'
              subst hpem'
              rw [hdec] at hdec'
              simp at hdec'

theorem checkCert_some (decode : List Nat → Option DecodedCert)
    (issuerName : String) (sm : List (String × Secret)) (crt : Certificate)
    (e : String × Certificate)
    (h : (checkCert decode issuerName sm crt).2 = some e) :
    ∃ s pem dc,
      lookupA sm (crt.ns ++ "/" ++ crt.secretName) = some s ∧
      lookupA (s.data.getD []) tlsCertKey = some pem ∧
      decode pem = some dc ∧ e = (dc.serialNumber, crt) := by
  unfold checkCert at h
  split at h
  · simp at h
  · simp at h
  · simp at h
  · rename_i dc s hcor
    obtain ⟨hl, d, pem, hd, hpem, hdec⟩ :=
      correlate_success_elim decode sm crt dc s hcor
    refine ⟨s, pem, dc, hl, ?_, hdec, ?_⟩
    · rw [hd]
      exact hpem
    · split at h
      · split at h
        · simp at h
        · simp at h
          exact h.symm
      · simp at h
        exact h.symm

/-- C7: the correlation step classifies a certificate as skipped exactly when
its backing secret is missing, the certificate bytes are absent or empty, or
the bytes fail to decode; and these per-certificate skips never abort the run:
after two successful bulk reads an error can only arise with the renew flag
set (i.e. from the renewal phase, never from classification). -/
theorem correlator_skip_cases (decode : List Nat → Option DecodedCert)
    (sm : List (String × Secret)) (crt : Certificate) (issuerName : String)
    (renew : Bool) (env : Env) (certs : List Certificate)
    (secrets : List Secret) (e : Err) (hempty : decode [] = none) :
    ((correlate decode sm crt).isSkip = true ↔
      (lookupA sm (crt.ns ++ "/" ++ crt.secretName) = none ∨
       (∃ s, lookupA sm (crt.ns ++ "/" ++ crt.secretName) = some s ∧
         (s.data = none ∨ lookupA (s.data.getD []) tlsCertKey = none ∨
          lookupA (s.data.getD []) tlsCertKey = some [])) ∨
       (∃ s pem, lookupA sm (crt.ns ++ "/" ++ crt.secretName) = some s ∧
         lookupA (s.data.getD []) tlsCertKey = some pem ∧ decode pem = none))) ∧
    ((run decode issuerName renew env (.ok certs) (.ok secrets)).1 = .error e →
      renew = true) := by
  refine ⟨correlate_skip_iff decode hempty sm crt, ?_⟩
  intro hrun
  by_cases hr : renew = true
  · exact hr
  · exfalso
    simp at hr
    subst hr
    rw [run_dry_aux] at hrun
    simp at hrun

def okEnv : Env :=
  ⟨fun _ _ => .ok [], fun ns name => .ok ⟨ns, name, none, none⟩,
   fun _ => .ok (), fun _ => .ok ()⟩

def wCrt : Certificate := ⟨"ns", "crt", "sec", "uid"⟩

theorem correlator_skip_cases_witness :
    demoDecode [] = none ∧
    (((correlate demoDecode [] wCrt).isSkip = true ↔
      (lookupA ([] : List (String × Secret))
          (wCrt.ns ++ "/" ++ wCrt.secretName) = none ∨
       (∃ s, lookupA ([] : List (String × Secret))
          (wCrt.ns ++ "/" ++ wCrt.secretName) = some s ∧
         (s.data = none ∨ lookupA (s.data.getD []) tlsCertKey = none ∨
          lookupA (s.data.getD []) tlsCertKey = some [])) ∨
       (∃ s pem, lookupA ([] : List (String × Secret))
          (wCrt.ns ++ "/" ++ wCrt.secretName) = some s ∧
         lookupA (s.data.getD []) tlsCertKey = some pem ∧
         demoDecode pem = none))) ∧
    ((run demoDecode "" true okEnv (.ok []) (.ok [])).1 = .error .timeoutErr →
      true = true)) :=
  ⟨rfl, correlator_skip_cases demoDecode [] wCrt "" true okEnv [] []
    .timeoutErr rfl⟩

/-! ### The issuer-name filter (C1) -/

theorem filterScan_fold (flt : String) (anns : List (String × String)) :
    ∀ (b : Bool) (n : Nat),
      anns.foldl
        (fun acc p =>
          if p.1 = issuerAnnKey ∧ p.2 ≠ flt then (true, acc.2 + 1) else acc)
        (b, n) =
      (b || anns.any (fun p => decide (p.1 = issuerAnnKey ∧ p.2 ≠ flt)),
       n + anns.countP (fun p => decide (p.1 = issuerAnnKey ∧ p.2 ≠ flt))) := by
  induction anns with
  | nil =>
    intro b n
    simp
  | cons p rest ih =>
    intro b n
    by_cases hp : p.1 = issuerAnnKey ∧ p.2 ≠ flt
    · have hg : decide (p.1 = issuerAnnKey ∧ p.2 ≠ flt) = true := by
        simp [hp]
      simp only [List.foldl_cons, if_pos hp]
      rw [ih]
      simp only [Prod.mk.injEq, List.any_cons, List.countP_cons, hg, if_true]
      refine ⟨by simp, by omega⟩
    · have hg : decide (p.1 = issuerAnnKey ∧ p.2 ≠ flt) = false := by
        simp only [decide_eq_false_iff_not]
        exact hp
      simp only [List.foldl_cons, if_neg hp]
      rw [ih]
      simp only [Prod.mk.injEq, List.any_cons, List.countP_cons, hg,
        Bool.false_eq_true, if_false]
      refine ⟨by simp, by omega⟩

theorem filterScan_skip_iff (flt : String) (anns : List (String × String)) :
    ((filterScan flt anns).1 = true ↔
      ∃ p ∈ anns, p.1 = issuerAnnKey ∧ p.2 ≠ flt) ∧
    (filterScan flt anns).2 =
      anns.countP (fun p => decide (p.1 = issuerAnnKey ∧ p.2 ≠ flt)) := by
  unfold filterScan
  rw [filterScan_fold]
  constructor
  · simp [List.any_eq_true]
  · simp

def cexCert : Certificate := ⟨"ns", "c1", "s1", "u1"⟩

def cexSecretNoAnn : Secret := ⟨"ns", "s1", some [(tlsCertKey, [7])], none⟩

/-- C1 counterexample: with the non-empty filter "letsencrypt-prod", a
certificate whose backing secret decodes but carries no issuer-name annotation
at all is still placed in the AffectedSet (and not counted skipped), although
its annotation value does not equal the filter — the filter loop only skips
when the annotation is present with a different value. -/
theorem filter_counterexample :
    analyze demoDecode "letsencrypt-prod" [cexCert] [cexSecretNoAnn] =
      ⟨0, [("7", cexCert)]⟩ ∧
    lookupA (cexSecretNoAnn.annotations.getD []) issuerAnnKey ≠
      some "letsencrypt-prod" := by
  constructor
  · rfl
  · decide

/-- C1 (amended): with a non-empty filter, a successfully decoded certificate
is excluded from the AffectedSet and counted as skipped exactly when its
secret's annotation map contains an issuer-name entry whose value differs from
the filter; a certificate whose secret lacks the issuer-name annotation is
placed in the AffectedSet despite the filter. -/
theorem filter_exact_match_amended (decode : List Nat → Option DecodedCert)
    (flt : String) (sm : List (String × Secret)) (crt : Certificate)
    (dc : DecodedCert) (s : Secret) (hflt : flt ≠ "")
    (hcor : correlate decode sm crt = .success dc s) :
    ((checkCert decode flt sm crt).2 = some (dc.serialNumber, crt) ↔
      ¬ ∃ p ∈ s.annotations.getD [], p.1 = issuerAnnKey ∧ p.2 ≠ flt) ∧
    ((checkCert decode flt sm crt).2 = none ↔
      ∃ p ∈ s.annotations.getD [], p.1 = issuerAnnKey ∧ p.2 ≠ flt) ∧
    (checkCert decode flt sm crt).1 =
      (s.annotations.getD []).countP
        (fun p => decide (p.1 = issuerAnnKey ∧ p.2 ≠ flt)) := by
  have hck : checkCert decode flt sm crt =
      (if (filterScan flt (s.annotations.getD [])).1 then
        ((filterScan flt (s.annotations.getD [])).2, none)
      else ((filterScan flt (s.annotations.getD [])).2,
        some (dc.serialNumber, crt))) := by
    simp only [checkCert, hcor]
    rw [if_pos hflt]
  obtain ⟨hskip, hcount⟩ := filterScan_skip_iff flt (s.annotations.getD [])
  by_cases hb : (filterScan flt (s.annotations.getD [])).1 = true
  · have hex := hskip.1 hb
    rw [hck, if_pos hb]
    exact ⟨⟨fun h => by simp at h, fun h => absurd hex h⟩,
      ⟨fun _ => hex, fun _ => rfl⟩, hcount⟩
  · have hnex : ¬ ∃ p ∈ s.annotations.getD [],
        p.1 = issuerAnnKey ∧ p.2 ≠ flt :=
      fun hex => hb (hskip.2 hex)
    rw [hck, if_neg hb]
    exact ⟨⟨fun _ => hnex, fun _ => rfl⟩,
      ⟨fun h => by simp at h, fun h => absurd h hnex⟩, hcount⟩

def wSecretAnn : Secret :=
  ⟨"ns", "s1", some [(tlsCertKey, [7])],
   some [(issuerAnnKey, "letsencrypt-prod")]⟩

theorem filter_exact_match_amended_witness :
    ("letsencrypt-prod" : String) ≠ "" ∧
    (((checkCert demoDecode "letsencrypt-prod" (makeSecretsMap [wSecretAnn])
        cexCert).2 =
        some ((⟨"7"⟩ : DecodedCert).serialNumber, cexCert) ↔
      ¬ ∃ p ∈ wSecretAnn.annotations.getD [],
        p.1 = issuerAnnKey ∧ p.2 ≠ "letsencrypt-prod") ∧
    ((checkCert demoDecode "letsencrypt-prod" (makeSecretsMap [wSecretAnn])
        cexCert).2 = none ↔
      ∃ p ∈ wSecretAnn.annotations.getD [],
        p.1 = issuerAnnKey ∧ p.2 ≠ "letsencrypt-prod") ∧
    (checkCert demoDecode "letsencrypt-prod" (makeSecretsMap [wSecretAnn])
        cexCert).1 =
      (wSecretAnn.annotations.getD []).countP
        (fun p => decide (p.1 = issuerAnnKey ∧ p.2 ≠ "letsencrypt-prod"))) :=
  ⟨by decide, filter_exact_match_amended demoDecode "letsencrypt-prod"
    (makeSecretsMap [wSecretAnn]) cexCert ⟨"7"⟩ wSecretAnn (by decide) rfl⟩

/-! ### The affected map as a fold of Go-map writes (C3, C8) -/

/-- The entries the analysis loop inserts into the affected map, in order. -/
def entriesOf (decode : List Nat → Option DecodedCert) (issuerName : String)
    (sm : List (String × Secret)) (certs : List Certificate) :
    List (String × Certificate) :=
  certs.filterMap (fun c => (checkCert decode issuerName sm c).2)

theorem stepF_affected_none (decode : List Nat → Option DecodedCert)
    (issuerName : String) (sm : List (String × Secret)) (acc : AnalysisResult)
    (crt : Certificate) (hc : (checkCert decode issuerName sm crt).2 = none) :
    (stepF decode issuerName sm acc crt).affected = acc.affected := by
  unfold stepF
  rw [hc]

theorem stepF_affected_some (decode : List Nat → Option DecodedCert)
    (issuerName : String) (sm : List (String × Secret)) (acc : AnalysisResult)
    (crt : Certificate) (e : String × Certificate)
    (hc : (checkCert decode issuerName sm crt).2 = some e) :
    (stepF decode issuerName sm acc crt).affected =
      setA acc.affected e.1 e.2 := by
  unfold stepF
  rw [hc]

theorem foldl_stepF_affected (decode : List Nat → Option DecodedCert)
    (issuerName : String) (sm : List (String × Secret)) :
    ∀ (certs : List Certificate) (acc : AnalysisResult),
      (certs.foldl (stepF decode issuerName sm) acc).affected =
        (entriesOf decode issuerName sm certs).foldl
          (fun m e => setA m e.1 e.2) acc.affected := by
  intro certs
  induction certs with
  | nil =>
    intro acc
    rfl
  | cons c rest ih =>
    intro acc
    rw [List.foldl_cons, ih]
    rcases hc : (checkCert decode issuerName sm c).2 with _ | e
    · rw [stepF_affected_none decode issuerName sm acc c hc]
      unfold entriesOf
      simp only [List.filterMap_cons, hc]
    · rw [stepF_affected_some decode issuerName sm acc c e hc]
      unfold entriesOf
      simp only [List.filterMap_cons, hc, List.foldl_cons]

theorem analyze_affected_eq (decode : List Nat → Option DecodedCert)
    (issuerName : String) (certs : List Certificate) (secrets : List Secret) :
    (analyze decode issuerName certs secrets).affected =
      (entriesOf decode issuerName (makeSecretsMap secrets) certs).foldl
        (fun m e => setA m e.1 e.2) [] :=
  foldl_stepF_affected decode issuerName (makeSecretsMap secrets) certs ⟨0, []⟩

theorem mem_foldl_setA {α : Type} :
    ∀ (entries : List (String × α)) (acc : List (String × α)) (e : String × α),
      e ∈ entries.foldl (fun m p => setA m p.1 p.2) acc →
      e ∈ acc ∨ e ∈ entries := by
  intro entries
  induction entries with
  | nil =>
    intro acc e h
    exact Or.inl h
  | cons p rest ih =>
    intro acc e h
    rw [List.foldl_cons] at h
    rcases ih _ e h with h1 | h1
    · rcases mem_setA _ _ _ _ h1 with h2 | h2
      · right
        simp [h2]
      · left
        exact h2
    · right
      exact List.mem_cons_of_mem _ h1

theorem mem_keysOf_foldl_setA {α : Type} :
    ∀ (entries : List (String × α)) (acc : List (String × α)) (k : String),
      k ∈ keysOf (entries.foldl (fun m p => setA m p.1 p.2) acc) ↔
      k ∈ keysOf acc ∨ k ∈ entries.map Prod.fst := by
  intro entries
  induction entries with
  | nil =>
    intro acc k
    simp
  | cons p rest ih =>
    intro acc k
    rw [List.foldl_cons, ih, mem_keysOf_setA]
    simp only [List.map_cons, List.mem_cons]
    tauto

theorem length_foldl_setA {α : Type} :
    ∀ (entries : List (String × α)) (acc : List (String × α)),
      (entries.map Prod.fst).Nodup →
      (∀ k ∈ entries.map Prod.fst, k ∉ keysOf acc) →
      (entries.foldl (fun m p => setA m p.1 p.2) acc).length =
        acc.length + entries.length := by
  intro entries
  induction entries with
  | nil =>
    intro acc _ _
    simp
  | cons p rest ih =>
    intro acc hnd hdisj
    rw [List.foldl_cons]
    have hp : p.1 ∉ keysOf acc := hdisj p.1 (by simp)
    have hnd' : (rest.map Prod.fst).Nodup := by
      rw [List.map_cons] at hnd
      exact hnd.of_cons
    have hfst : p.1 ∉ rest.map Prod.fst := by
      rw [List.map_cons] at hnd
      exact (List.nodup_cons.1 hnd).1
    have hdisj' : ∀ k ∈ rest.map Prod.fst, k ∉ keysOf (setA acc p.1 p.2) := by
      intro k hk
      rw [mem_keysOf_setA]
      rintro (rfl | hmem)
      · exact hfst hk
      · exact hdisj k (List.mem_cons_of_mem _ hk) hmem
    rw [ih (setA acc p.1 p.2) hnd' hdisj',
      length_setA_not_mem acc p.1 p.2 hp]
    simp
    omega

def isSuccess : CorrelateResult → Bool
  | .success _ _ => true
  | _ => false

theorem checkCert_empty_filter (decode : List Nat → Option DecodedCert)
    (sm : List (String × Secret)) (crt : Certificate) :
    (checkCert decode "" sm crt).2 =
      match correlate decode sm crt with
      | .success dc _ => some (dc.serialNumber, crt)
      | _ => none := by
  rcases hcor : correlate decode sm crt with _ | _ | _ | ⟨dc, s⟩ <;>
    simp [checkCert, hcor]

theorem entriesOf_length_empty_filter (decode : List Nat → Option DecodedCert)
    (sm : List (String × Secret)) :
    ∀ certs : List Certificate,
      (entriesOf decode "" sm certs).length =
        (certs.filter (fun c => isSuccess (correlate decode sm c))).length := by
  intro certs
  induction certs with
  | nil => rfl
  | cons c rest ih =>
    unfold entriesOf at ih ⊢
    rcases hcor : correlate decode sm c with _ | _ | _ | ⟨dc, s⟩
    · have hfc : (checkCert decode "" sm c).2 = none := by
        rw [checkCert_empty_filter decode sm c, hcor]
      simp only [List.filterMap_cons, hfc, List.filter_cons, hcor, isSuccess]
      simpa using ih
    · have hfc : (checkCert decode "" sm c).2 = none := by
        rw [checkCert_empty_filter decode sm c, hcor]
      simp only [List.filterMap_cons, hfc, List.filter_cons, hcor, isSuccess]
      simpa using ih
    · have hfc : (checkCert decode "" sm c).2 = none := by
        rw [checkCert_empty_filter decode sm c, hcor]
      simp only [List.filterMap_cons, hfc, List.filter_cons, hcor, isSuccess]
      simpa using ih
    · have hfc : (checkCert decode "" sm c).2 = some (dc.serialNumber, c) := by
        rw [checkCert_empty_filter decode sm c, hcor]
      simp only [List.filterMap_cons, hfc, List.filter_cons, hcor, isSuccess]
      simpa using ih

def colCertA : Certificate := ⟨"ns", "a", "sa", "ua"⟩

def colCertB : Certificate := ⟨"ns", "b", "sb", "ub"⟩

def colSecretA : Secret := ⟨"ns", "sa", some [(tlsCertKey, [7])], none⟩

def colSecretB : Secret := ⟨"ns", "sb", some [(tlsCertKey, [7])], none⟩

/-- C3 counterexample: with the empty filter, two certificates whose secrets
decode to the same serial number both count as Correlator successes, but the
serial-keyed map keeps only the last one: the AffectedSet has size 1, not 2,
and the first certificate is absent from it. -/
theorem serial_collision_counterexample :
    analyze demoDecode "" [colCertA, colCertB] [colSecretA, colSecretB] =
      ⟨0, [("7", colCertB)]⟩ ∧
    (checkCert demoDecode "" (makeSecretsMap [colSecretA, colSecretB])
      colCertA).2.isSome = true ∧
    (checkCert demoDecode "" (makeSecretsMap [colSecretA, colSecretB])
      colCertB).2.isSome = true ∧
    (analyze demoDecode "" [colCertA, colCertB]
      [colSecretA, colSecretB]).affected.length ≠ 2 ∧
    ("7", colCertA) ∉ (analyze demoDecode "" [colCertA, colCertB]
      [colSecretA, colSecretB]).affected := by
  refine ⟨rfl, rfl, rfl, by decide, by decide⟩

/-- C3 (amended): with the empty filter every Correlator success contributes
its serial number as a key of the AffectedSet, and the AffectedSet size equals
the number of Correlator successes whenever the successes' serial numbers are
pairwise distinct (on a serial collision the map keeps only the last entry). -/
theorem empty_filter_affected_amended (decode : List Nat → Option DecodedCert)
    (certs : List Certificate) (secrets : List Secret)
    (hnd : ((entriesOf decode "" (makeSecretsMap secrets) certs).map
      Prod.fst).Nodup) :
    (analyze decode "" certs secrets).affected.length =
      (certs.filter (fun c =>
        isSuccess (correlate decode (makeSecretsMap secrets) c))).length ∧
    ∀ e ∈ entriesOf decode "" (makeSecretsMap secrets) certs,
      e.1 ∈ keysOf (analyze decode "" certs secrets).affected := by
  constructor
  · rw [analyze_affected_eq, ← entriesOf_length_empty_filter]
    have hlen := length_foldl_setA
      (entriesOf decode "" (makeSecretsMap secrets) certs) [] hnd
      (by simp [keysOf])
    simpa using hlen
  · intro e he
    rw [analyze_affected_eq, mem_keysOf_foldl_setA]
    right
    exact List.mem_map_of_mem _ he

theorem empty_filter_affected_amended_witness :
    ((entriesOf demoDecode "" (makeSecretsMap [cexSecretNoAnn])
      [cexCert]).map Prod.fst).Nodup ∧
    ((analyze demoDecode "" [cexCert] [cexSecretNoAnn]).affected.length =
      ([cexCert].filter (fun c =>
        isSuccess (correlate demoDecode (makeSecretsMap [cexSecretNoAnn])
          c))).length ∧
    ∀ e ∈ entriesOf demoDecode "" (makeSecretsMap [cexSecretNoAnn]) [cexCert],
      e.1 ∈ keysOf (analyze demoDecode "" [cexCert]
        [cexSecretNoAnn]).affected) :=
  ⟨by decide, empty_filter_affected_amended demoDecode [cexCert]
    [cexSecretNoAnn] (by decide)⟩

/-- C8: every entry of the AffectedSet produced by one classification pass has
a backing secret that exists under the certificate's namespace/secret-name key
and whose certificate bytes decode to a certificate whose serial number is the
entry's key. -/
theorem affected_invariant (decode : List Nat → Option DecodedCert)
    (issuerName : String) (certs : List Certificate) (secrets : List Secret)
    (e : String × Certificate)
    (he : e ∈ (analyze decode issuerName certs secrets).affected) :
    ∃ s pem dc,
      lookupA (makeSecretsMap secrets) (e.2.ns ++ "/" ++ e.2.secretName) =
        some s ∧
      lookupA (s.data.getD []) tlsCertKey = some pem ∧
      decode pem = some dc ∧ dc.serialNumber = e.1 := by
  rw [analyze_affected_eq] at he
  rcases mem_foldl_setA _ _ e he with h | h
  · simp at h
  · obtain ⟨crt, hcrt, hc⟩ := List.mem_filterMap.1 h
    obtain ⟨s, pem, dc, hl, hpem, hdec, he2⟩ :=
      checkCert_some decode issuerName _ crt e hc
    subst he2
    exact ⟨s, pem, dc, hl, hpem, hdec, rfl⟩

theorem affected_invariant_witness :
    ("7", cexCert) ∈
      (analyze demoDecode "" [cexCert] [cexSecretNoAnn]).affected ∧
    ∃ s pem dc,
      lookupA (makeSecretsMap [cexSecretNoAnn])
        (("7", cexCert).2.ns ++ "/" ++ ("7", cexCert).2.secretName) = some s ∧
      lookupA (s.data.getD []) tlsCertKey = some pem ∧
      demoDecode pem = some dc ∧ dc.serialNumber = ("7", cexCert).1 :=
  ⟨by decide, affected_invariant demoDecode "" [cexCert] [cexSecretNoAnn]
    ("7", cexCert) (by decide)⟩

/-! ### CancelStale and the in-progress early return (C2) -/

theorem cancelStaleLoop_early (env : Env) (cert : Certificate)
    (hdel : ∀ r, env.deleteRequest r = .ok ()) :
    ∀ (reqs : List CertificateRequest) (eff : Effects),
      (∃ r ∈ reqs, isControlledBy r cert = true ∧
        r.statusCertificate.length = 0) →
      ∃ eff', cancelStaleLoop env cert reqs eff = .earlyDone eff' ∧
        eff'.updated = eff.updated ∧
        ∀ r ∈ eff'.deleted, r ∈ eff.deleted ∨
          (isControlledBy r cert = true ∧ r.statusCertificate.length ≠ 0) := by
  intro reqs
  induction reqs with
  | nil =>
    intro eff h
    simp at h
  | cons req rest ih =>
    intro eff h
    by_cases hc : isControlledBy req cert = true
    · by_cases hlen : req.statusCertificate.length = 0
      · refine ⟨eff, ?_, rfl, fun r hr => Or.inl hr⟩
        unfold cancelStaleLoop
        rw [if_pos hc, if_pos hlen]
      · have hrest : ∃ r ∈ rest, isControlledBy r cert = true ∧
            r.statusCertificate.length = 0 := by
          rcases h with ⟨r, hr, hrc⟩
          rcases List.mem_cons.1 hr with rfl | hr'
          · exact absurd hrc.2 hlen
          · exact ⟨r, hr', hrc⟩
        obtain ⟨eff', heq, hupd, hdelmem⟩ :=
          ih ⟨eff.deleted ++ [req], eff.updated⟩ hrest
        refine ⟨eff', ?_, hupd, ?_⟩
        · unfold cancelStaleLoop
          rw [if_pos hc, if_neg hlen, hdel req]
          exact heq
        · intro r hr
          rcases hdelmem r hr with h1 | h1
          · rcases List.mem_append.1 h1 with h2 | h2
            · exact Or.inl h2
            · right
              simp at h2
              subst h2
              exact ⟨hc, hlen⟩
          · exact Or.inr h1
    · have hrest : ∃ r ∈ rest, isControlledBy r cert = true ∧
          r.statusCertificate.length = 0 := by
        rcases h with ⟨r, hr, hrc⟩
        rcases List.mem_cons.1 hr with rfl | hr'
        · exact absurd hrc.1 hc
        · exact ⟨r, hr', hrc⟩
      obtain ⟨eff', heq, hupd, hdelmem⟩ := ih eff hrest
      refine ⟨eff', ?_, hupd, hdelmem⟩
      unfold cancelStaleLoop
      rw [if_neg hc]
      exact heq

def reqDone : CertificateRequest := ⟨"ns", "r1", some "u1", [1]⟩

def reqProg : CertificateRequest := ⟨"ns", "r2", some "u1", []⟩

def cexEnv : Env :=
  ⟨fun _ _ => .ok [reqDone, reqProg],
   fun ns name => .ok ⟨ns, name, none, none⟩,
   fun _ => .ok (), fun _ => .ok ()⟩

/-- C2 counterexample: an owned RenewalRequest with an empty completion marker
exists at CancelStale time, yet the renewal run is not deletion-free — the
owned completed request listed before it is deleted before the early return,
so the backing-store state is not completely unchanged. -/
theorem in_progress_counterexample :
    (∃ r ∈ [reqDone, reqProg], isControlledBy r cexCert = true ∧
      r.statusCertificate.length = 0) ∧
    cexEnv.listRequestsAt 0 cexCert.ns = .ok [reqDone, reqProg] ∧
    renewCertificate cexEnv cexCert = (.ok (), ⟨[reqDone], []⟩) := by
  refine ⟨by decide, rfl, rfl⟩

/-- C2 (amended): whenever an owned RenewalRequest with an empty completion
marker exists at CancelStale time (and deletions succeed), the per-certificate
renewal returns success early with zero SecretRecord mutations; its only
possible side effects are deletions of owned completed requests listed before
the in-progress one — in particular no secret is ever touched. -/
theorem in_progress_no_mutation (env : Env) (cert : Certificate)
    (reqs : List CertificateRequest)
    (hlist : env.listRequestsAt 0 cert.ns = .ok reqs)
    (hdel : ∀ r, env.deleteRequest r = .ok ())
    (hprog : ∃ r ∈ reqs, isControlledBy r cert = true ∧
      r.statusCertificate.length = 0) :
    (renewCertificate env cert).1 = .ok () ∧
    (renewCertificate env cert).2.updated = [] ∧
    ∀ r ∈ (renewCertificate env cert).2.deleted,
      isControlledBy r cert = true ∧ r.statusCertificate.length ≠ 0 := by
  obtain ⟨eff', heq, hupd, hdelmem⟩ :=
    cancelStaleLoop_early env cert hdel reqs noEffects hprog
  have hrc : renewCertificate env cert = (.ok (), eff') := by
    simp only [renewCertificate, hlist, heq]
  rw [hrc]
  refine ⟨rfl, ?_, ?_⟩
  · simpa [noEffects] using hupd
  · intro r hr
    rcases hdelmem r hr with h1 | h1
    · simp [noEffects] at h1
    · exact h1

def progEnv : Env :=
  ⟨fun _ _ => .ok [reqProg], fun ns name => .ok ⟨ns, name, none, none⟩,
   fun _ => .ok (), fun _ => .ok ()⟩

theorem in_progress_no_mutation_witness :
    progEnv.listRequestsAt 0 cexCert.ns = .ok [reqProg] ∧
    (∀ r, progEnv.deleteRequest r = .ok ()) ∧
    (∃ r ∈ [reqProg], isControlledBy r cexCert = true ∧
      r.statusCertificate.length = 0) ∧
    ((renewCertificate progEnv cexCert).1 = .ok () ∧
     (renewCertificate progEnv cexCert).2.updated = [] ∧
     ∀ r ∈ (renewCertificate progEnv cexCert).2.deleted,
       isControlledBy r cexCert = true ∧ r.statusCertificate.length ≠ 0) :=
  ⟨rfl, fun _ => rfl, by decide,
   in_progress_no_mutation progEnv cexCert [reqProg] rfl (fun _ => rfl)
     (by decide)⟩

/-! ### The renewal loop aborts on the first failure (C5) -/

theorem renewAll_cons_error (env : Env) (c : Certificate)
    (rest : List Certificate) (eff : Effects) (e : Err)
    (hc : (renewCertificate env c).1 = .error e) :
    renewAll env (c :: rest) eff =
      (.error e, Effects.append eff (renewCertificate env c).2) := by
  simp only [renewAll, hc]

theorem renewAll_cons_ok (env : Env) (c : Certificate)
    (rest : List Certificate) (eff : Effects)
    (hc : (renewCertificate env c).1 = .ok ()) :
    renewAll env (c :: rest) eff =
      renewAll env rest (Effects.append eff (renewCertificate env c).2) := by
  simp only [renewAll, hc]

/-- C5: the renewal loop stops at the first certificate whose renewal fails:
the whole run returns that error, and the certificates after it are never
processed — the result (error and effect trace) is exactly that of the loop
with the trailing certificates removed. -/
theorem first_failure_aborts (env : Env) (pre : List Certificate)
    (c : Certificate) (post : List Certificate) (eff : Effects) (e : Err)
    (hpre : ∀ c' ∈ pre, (renewCertificate env c').1 = .ok ())
    (hc : (renewCertificate env c).1 = .error e) :
    (renewAll env (pre ++ c :: post) eff).1 = .error e ∧
    renewAll env (pre ++ c :: post) eff = renewAll env (pre ++ [c]) eff := by
  induction pre generalizing eff with
  | nil =>
    rw [List.nil_append, List.nil_append,
      renewAll_cons_error env c post eff e hc,
      renewAll_cons_error env c [] eff e hc]
    exact ⟨rfl, rfl⟩
  | cons c' rest ih =>
    have hc' : (renewCertificate env c').1 = .ok () := hpre c' (by simp)
    have hpre' : ∀ x ∈ rest, (renewCertificate env x).1 = .ok () :=
      fun x hx => hpre x (List.mem_cons_of_mem _ hx)
    rw [List.cons_append, List.cons_append,
      renewAll_cons_ok env c' _ eff hc', renewAll_cons_ok env c' _ eff hc']
    exact ih _ hpre'

def failEnv : Env :=
  ⟨fun _ _ => .error .listRequestsErr, fun _ _ => .error .getSecretErr,
   fun _ => .error .updateSecretErr, fun _ => .error .deleteRequestErr⟩

theorem first_failure_aborts_witness :
    (∀ c' ∈ ([] : List Certificate),
      (renewCertificate failEnv c').1 = .ok ()) ∧
    (renewCertificate failEnv cexCert).1 = .error .listRequestsErr ∧
    ((renewAll failEnv ([] ++ cexCert :: [wCrt]) noEffects).1 =
      .error .listRequestsErr ∧
     renewAll failEnv ([] ++ cexCert :: [wCrt]) noEffects =
       renewAll failEnv ([] ++ [cexCert]) noEffects) :=
  ⟨by simp, rfl, first_failure_aborts failEnv [] cexCert [wCrt] noEffects
    .listRequestsErr (by simp) rfl⟩

/-! ### AwaitRequest polling (C4) -/

/-- At tick `t` the namespace listing succeeds and contains a request owned by
the certificate. -/
def sighted (env : Env) (cert : Certificate) (t : Nat) : Prop :=
  ∃ reqs, env.listRequestsAt t cert.ns = .ok reqs ∧
    reqs.any (fun r => isControlledBy r cert) = true

theorem awaitFrom_characterization (env : Env) (cert : Certificate) :
    ∀ (fuel t0 : Nat),
      (∀ i, i < fuel → ∃ reqs,
        env.listRequestsAt (t0 + i) cert.ns = .ok reqs) →
      ((awaitFrom env cert t0 fuel = .ok () ↔
        ∃ i, i < fuel ∧ sighted env cert (t0 + i)) ∧
       (awaitFrom env cert t0 fuel = .error .timeoutErr ↔
        ∀ i, i < fuel → ¬ sighted env cert (t0 + i))) := by
  intro fuel
  induction fuel with
  | zero =>
    intro t0 _
    refine ⟨⟨fun h => by simp [awaitFrom] at h, ?_⟩,
      ⟨fun _ i hi => absurd hi (by omega), fun _ => rfl⟩⟩
    rintro ⟨i, hi, _⟩
    exact absurd hi (by omega)
  | succ n ih =>
    intro t0 hok
    obtain ⟨reqs0, hreqs0⟩ := hok 0 (by omega)
    rw [Nat.add_zero] at hreqs0
    have hstep : awaitFrom env cert t0 (n + 1) =
        (if reqs0.any (fun r => isControlledBy r cert) then Except.ok ()
         else awaitFrom env cert (t0 + 1) n) := by
      simp only [awaitFrom, hreqs0, pollInterval]
    have hsig0 : sighted env cert t0 ↔
        reqs0.any (fun r => isControlledBy r cert) = true := by
      constructor
      · rintro ⟨reqs, hr, ha⟩
        rw [hreqs0] at hr
        injection hr with hr
        subst hr
        exact ha
      · intro ha
        exact ⟨reqs0, hreqs0, ha⟩
    by_cases hs : reqs0.any (fun r => isControlledBy r cert) = true
    · rw [hstep, if_pos hs]
      constructor
      · constructor
        · intro _
          exact ⟨0, by omega, hsig0.2 hs⟩
        · intro _
          rfl
      · constructor
        · intro h
          simp at h
        · intro hall
          exact absurd (hsig0.2 hs) (hall 0 (by omega))
    · rw [hstep, if_neg hs]
      have hok' : ∀ i, i < n → ∃ reqs,
          env.listRequestsAt ((t0 + 1) + i) cert.ns = .ok reqs := by
        intro i hi
        have hx := hok (i + 1) (by omega)
        rwa [show t0 + (i + 1) = (t0 + 1) + i by omega] at hx
      obtain ⟨ihok, ihtim⟩ := ih (t0 + 1) hok'
      constructor
      · rw [ihok]
        constructor
        · rintro ⟨i, hi, hsig⟩
          rw [show (t0 + 1) + i = t0 + (i + 1) by omega] at hsig
          exact ⟨i + 1, by omega, hsig⟩
        · rintro ⟨i, hi, hsig⟩
          rcases i with _ | j
          · exact absurd (hsig0.1 hsig) hs
          · rw [show t0 + (j + 1) = (t0 + 1) + j by omega] at hsig
            exact ⟨j, by omega, hsig⟩
      · rw [ihtim]
        constructor
        · intro hall i hi hsig
          rcases i with _ | j
          · exact hs (hsig0.1 hsig)
          · rw [show t0 + (j + 1) = (t0 + 1) + j by omega] at hsig
            exact hall j (by omega) hsig
        · intro hall i hi hsig
          rw [show (t0 + 1) + i = t0 + (i + 1) by omega] at hsig
          exact hall (i + 1) (by omega) hsig

/-- C4: AwaitRequest polls the namespace's request list at a fixed interval of
1 time unit with a ceiling of 60 time units; given error-free listings over
the window it returns success exactly when an owned request is sighted at some
poll tick in [1, 60], and the propagated timeout failure exactly when no owned
request appears at any poll up to and including the ceiling. -/
theorem await_request_bounded (env : Env) (cert : Certificate)
    (hok : ∀ t, 1 ≤ t → t ≤ pollCeiling → ∃ reqs,
      env.listRequestsAt t cert.ns = .ok reqs) :
    pollInterval = 1 ∧ pollCeiling = 60 ∧
    (awaitRequest env cert = .ok () ↔
      ∃ t, 1 ≤ t ∧ t ≤ pollCeiling ∧ sighted env cert t) ∧
    (awaitRequest env cert = .error .timeoutErr ↔
      ¬ ∃ t, 1 ≤ t ∧ t ≤ pollCeiling ∧ sighted env cert t) := by
  have hceil : pollCeiling = 60 := rfl
  have hok' : ∀ i, i < 60 → ∃ reqs,
      env.listRequestsAt (1 + i) cert.ns = .ok reqs := by
    intro i hi
    exact hok (1 + i) (by omega) (by rw [hceil]; omega)
  obtain ⟨h1, h2⟩ := awaitFrom_characterization env cert 60 1 hok'
  have har : awaitRequest env cert = awaitFrom env cert 1 60 := rfl
  refine ⟨rfl, rfl, ?_, ?_⟩
  · rw [har, h1, hceil]
    constructor
    · rintro ⟨i, hi, hsig⟩
      exact ⟨1 + i, by omega, by omega, hsig⟩
    · rintro ⟨t, ht1, ht2, hsig⟩
      refine ⟨t - 1, by omega, ?_⟩
      rw [show 1 + (t - 1) = t by omega]
      exact hsig
  · rw [har, h2, hceil]
    constructor
    · intro hall
      rintro ⟨t, ht1, ht2, hsig⟩
      refine hall (t - 1) (by omega) ?_
      rw [show 1 + (t - 1) = t by omega]
      exact hsig
    · intro hnex i hi hsig
      exact hnex ⟨1 + i, by omega, by omega, hsig⟩

def pollEnv : Env :=
  ⟨fun t _ => .ok (if t = 3 then [reqProg] else []),
   fun ns name => .ok ⟨ns, name, none, none⟩,
   fun _ => .ok (), fun _ => .ok ()⟩

theorem await_request_bounded_witness :
    (∀ t, 1 ≤ t → t ≤ pollCeiling → ∃ reqs,
      pollEnv.listRequestsAt t cexCert.ns = .ok reqs) ∧
    (pollInterval = 1 ∧ pollCeiling = 60 ∧
     (awaitRequest pollEnv cexCert = .ok () ↔
       ∃ t, 1 ≤ t ∧ t ≤ pollCeiling ∧ sighted pollEnv cexCert t) ∧
     (awaitRequest pollEnv cexCert = .error .timeoutErr ↔
       ¬ ∃ t, 1 ≤ t ∧ t ≤ pollCeiling ∧ sighted pollEnv cexCert t)) :=
  ⟨fun _ _ _ => ⟨_, rfl⟩,
   await_request_bounded pollEnv cexCert (fun _ _ _ => ⟨_, rfl⟩)⟩
